import Mathlib

/-!
# AGLE generator: bit-level model of `agle_urandom.c` and `agle_rng_final.c`

The generator state holds five C `double`s.  A `double` is modelled by its
IEEE-754 binary64 bit pattern, a natural number below `2^64`, so that the
`memcpy` reinterpretation of the source is the identity.  Arithmetic is
round-to-nearest-even with one rounding per C operation (binary64 evaluation,
no fused multiply-add).  C leaves the sign and payload of a NaN result to the
platform and to the operand order the compiler picks, so every NaN result is
represented by one pattern, the default quiet NaN, and the statements below
speak of a NaN only through `isNaN`, never through its bits.

The magnitude of a finite pattern is kept as the exact integer
`|value| * 2^1074`; sums, products and quotients are formed exactly on these
integers and rounded once.

The C library function `pow` is a parameter `lib` of the model, consulted
for NaN arguments and outside the argument pairs whose result ISO C Annex F
fixes.  The cycle
counter read by the jitter variant is a parameter `rdtsc`.
-/

namespace F64

/-- Sign bit (bit 63). -/
def sign (a : Nat) : Nat := (a / 2 ^ 63) % 2

/-- Biased exponent field (bits 52..62). -/
def expo (a : Nat) : Nat := (a / 2 ^ 52) % 2 ^ 11

/-- Fraction field (bits 0..51). -/
def frac (a : Nat) : Nat := a % 2 ^ 52

/-- Not-a-number: exponent all ones, fraction non-zero. -/
def isNaN (a : Nat) : Prop := expo a = 2047 ∧ frac a ≠ 0

/-- Infinity of either sign. -/
def isInf (a : Nat) : Prop := expo a = 2047 ∧ frac a = 0

instance (a : Nat) : Decidable (isNaN a) := by unfold isNaN; infer_instance

instance (a : Nat) : Decidable (isInf a) := by unfold isInf; infer_instance

/-- Default quiet NaN produced by an invalid operation. -/
def qNaN : Nat := 0xFFF8000000000000

/-- Bits of `+inf`. -/
def posInf : Nat := 0x7FF0000000000000

/-- Bits of `+0.0`. -/
def posZero : Nat := 0

/-- Bits of `-0.0`. -/
def negZero : Nat := 0x8000000000000000

/-- Bits of `1.0`. -/
def one : Nat := 0x3FF0000000000000

/-- Exact magnitude of a finite pattern, in units of `2^-1074`. -/
def mag (a : Nat) : Nat :=
  if expo a = 0 then frac a else (2 ^ 52 + frac a) * 2 ^ (expo a - 1)

/-- Exact signed value of a finite pattern, in units of `2^-1074`. -/
def toInt (a : Nat) : Int :=
  if sign a = 1 then -(mag a : Int) else (mag a : Int)

/-- Binary search for the leading one bit: level `k` tests whether the top
part starts at or above bit `2^k`. -/
def ilog2Aux : Nat → Nat → Nat → Nat
  | 0, _, acc => acc
  | k + 1, n, acc =>
    if 2 ^ 2 ^ k ≤ n then ilog2Aux k (n / 2 ^ 2 ^ k) (acc + 2 ^ k) else ilog2Aux k n acc

/-- Floor of the base-2 logarithm of `n` for `0 < n < 2^8192` (`0` at `0`).
The bound is above every integer the operations below form: a magnitude is
below `2^2098`, a product of two below `2^4196`, the scaled quotient of
division below `2^4300`. -/
def ilog2 (n : Nat) : Nat := ilog2Aux 13 n 0

/-- Quotient `N / 2^sh` rounded to nearest, ties to even. -/
def rne (N sh : Nat) : Nat :=
  if 2 ^ sh < 2 * (N % 2 ^ sh) ∨ (2 * (N % 2 ^ sh) = 2 ^ sh ∧ (N / 2 ^ sh) % 2 = 1)
  then N / 2 ^ sh + 1 else N / 2 ^ sh

/-- Magnitude bits of the binary64 nearest to `N * 2^-(1074+k)`; overflow
gives the bits of infinity. -/
def roundMag (N k : Nat) : Nat :=
  let sh := max k (ilog2 N - 52)
  let bits := (sh - k) * 2 ^ 52 + rne N sh
  if posInf ≤ bits then posInf else bits

/-- Attach a sign bit to magnitude bits. -/
def pack (neg : Bool) (m : Nat) : Nat := if neg then 2 ^ 63 + m else m

/-- Unary minus: flips the sign bit. -/
def neg (a : Nat) : Nat := if sign a = 1 then a % 2 ^ 63 else a % 2 ^ 63 + 2 ^ 63

/-- Binary64 addition. -/
def add (a b : Nat) : Nat :=
  if isNaN a ∨ isNaN b then qNaN
  else if isInf a then (if isInf b ∧ sign a ≠ sign b then qNaN else a % 2 ^ 64)
  else if isInf b then b % 2 ^ 64
  else if toInt a + toInt b = 0 then
    (if sign a = 1 ∧ sign b = 1 then negZero else posZero)
  else pack (decide (toInt a + toInt b < 0)) (roundMag (toInt a + toInt b).natAbs 0)

/-- Binary64 subtraction. -/
def sub (a b : Nat) : Nat :=
  if isNaN a ∨ isNaN b then qNaN else add a (neg b)

/-- Binary64 multiplication. -/
def mul (a b : Nat) : Nat :=
  if isNaN a ∨ isNaN b then qNaN
  else if isInf a ∨ isInf b then
    (if (¬ isInf a ∧ mag a = 0) ∨ (¬ isInf b ∧ mag b = 0) then qNaN
     else pack (decide (sign a ≠ sign b)) posInf)
  else pack (decide (sign a ≠ sign b)) (roundMag (mag a * mag b) 1074)

/-- Binary64 division. -/
def div (a b : Nat) : Nat :=
  if isNaN a ∨ isNaN b then qNaN
  else if isInf a then
    (if isInf b then qNaN else pack (decide (sign a ≠ sign b)) posInf)
  else if isInf b then pack (decide (sign a ≠ sign b)) 0
  else if mag b = 0 then
    (if mag a = 0 then qNaN else pack (decide (sign a ≠ sign b)) posInf)
  else
    pack (decide (sign a ≠ sign b))
      (roundMag (2 * (mag a * 2 ^ 2200 / mag b)
        + (if mag a * 2 ^ 2200 % mag b = 0 then 0 else 1)) 1127)

/-- The libm function floor on binary64. -/
def floor (a : Nat) : Nat :=
  if isNaN a then qNaN
  else if isInf a then a % 2 ^ 64
  else
    pack (decide (sign a = 1))
      (roundMag
        ((mag a / 2 ^ 1074
          + (if sign a = 1 ∧ mag a % 2 ^ 1074 ≠ 0 then 1 else 0)) * 2 ^ 1074) 0)

/-- The conversion `(double)(float)a`: round to binary32 (24 significant
bits, least unit `2^-149`, overflow from `2^128`), then widen. -/
def toF32 (a : Nat) : Nat :=
  if isNaN a then qNaN
  else if isInf a then a % 2 ^ 64
  else
    let sh := max 925 (ilog2 (mag a) - 23)
    let v := rne (mag a) sh * 2 ^ sh
    pack (decide (sign a = 1)) (if 2 ^ 1202 ≤ v then posInf else roundMag v 0)

/-- The conversion `(double)n` of an unsigned 64-bit integer. -/
def ofNat (n : Nat) : Nat := roundMag (n % 2 ^ 64 * 2 ^ 1074) 0

/-- The value is a finite odd integer. -/
def isOddInt (a : Nat) : Prop :=
  ¬ isNaN a ∧ ¬ isInf a ∧ mag a % 2 ^ 1074 = 0 ∧ (mag a / 2 ^ 1074) % 2 = 1

instance (a : Nat) : Decidable (isOddInt a) := by unfold isOddInt; infer_instance

/-- The value is `+0.0` or `-0.0`. -/
def isZero (a : Nat) : Prop := expo a = 0 ∧ frac a = 0

instance (a : Nat) : Decidable (isZero a) := by unfold isZero; infer_instance

/-- The libm function pow.  For arguments that are not NaN, the rows that
ISO C Annex F.10.4.4 fixes for a zero exponent, a base of one and a zero base
are evaluated here.  Every other argument pair, and every pair with a NaN
argument (where libraries differ on signalling NaNs and on the bits of the
NaN returned), is left to `lib`, the library's result, which the source does
not determine. -/
def pow (lib : Nat → Nat → Nat) (x y : Nat) : Nat :=
  if isNaN x ∨ isNaN y then lib x y
  else if isZero y then one
  else if x % 2 ^ 64 = one then one
  else if isZero x then
    (if sign y = 1 then
      (if isOddInt y then pack (decide (sign x = 1)) posInf else posInf)
     else
      (if isOddInt y then pack (decide (sign x = 1)) 0 else posZero))
  else lib x y

end F64

/-- The generator state `AGLE` of both C files: five doubles, as bit patterns. -/
structure AGLE where
  r : Nat
  alpha : Nat
  lambda : Nat
  x : Nat
  epsilon_acc : Nat
deriving DecidableEq

/-- The literal `0.3`. -/
def c_0_3 : Nat := 0x3FD3333333333333

/-- The literal `1e-7`. -/
def c_1em7 : Nat := 0x3E7AD7F29ABCAF48

/-- The literal `1e-5`. -/
def c_1em5 : Nat := 0x3EE4F8B588E368F1

/-- The literal `65535.0`. -/
def c_65535 : Nat := 0x40EFFFE000000000

/-- The literal `256.0`. -/
def c_256 : Nat := 0x4070000000000000

/-- The statement `mantissa = (uint32_t)((raw >> 12) & 0xFFFFFFFFUL)`. -/
def mantissa_of (raw : Nat) : Nat := (((raw % 2 ^ 64) >>> 12) &&& 0xFFFFFFFF) % 2 ^ 32

/-- The statement `eps_bits = (uint32_t)(eps_raw & 0xFFFFFFFFUL)`. -/
def eps_bits_of (eps_raw : Nat) : Nat := ((eps_raw % 2 ^ 64) &&& 0xFFFFFFFF) % 2 ^ 32

/-- What one pass through the loop body leaves: the state and the two
32-bit values extracted in step 7. -/
structure Pass where
  gen : AGLE
  mantissa : Nat
  eps_bits : Nat
deriving DecidableEq

/-- The function `agle_init` (identical in both files). -/
def agle_init (r alpha lambda x0 : Nat) : AGLE :=
  { r := r, alpha := alpha, lambda := lambda, x := x0, epsilon_acc := F64.posZero }

namespace Urandom

/-- One pass through the body of the `for` loop of `agle_next` in
`agle_urandom.c`. -/
def agle_iter (lib : Nat → Nat → Nat) (gen : AGLE) : Pass :=
  let f_real :=
    F64.mul (F64.mul (F64.mul gen.r gen.x) (F64.sub F64.one gen.x))
      (F64.pow lib gen.x (F64.neg gen.alpha))
  let f_quant := F64.toF32 f_real
  let epsilon := F64.sub f_real f_quant
  let acc := F64.sub (F64.add gen.epsilon_acc epsilon)
               (F64.floor (F64.add gen.epsilon_acc epsilon))
  let y := F64.sub f_quant (F64.floor f_quant)
  let x1 := F64.add (F64.add y (F64.mul gen.lambda epsilon))
              (F64.mul (F64.mul gen.lambda c_0_3) acc)
  let x2 := F64.sub x1 (F64.floor x1)
  { gen := { r := gen.r, alpha := gen.alpha, lambda := gen.lambda, x := x2,
             epsilon_acc := acc },
    mantissa := mantissa_of x2,
    eps_bits := eps_bits_of epsilon }

/-- The loop `for (iter = 0; iter < 4; iter++)` with `todo` passes left. -/
def agle_loop (lib : Nat → Nat → Nat) : Nat → Nat → AGLE → Nat × AGLE
  | 0, result, gen => (result, gen)
  | todo + 1, result, gen =>
    agle_loop lib todo
      (result ^^^ ((agle_iter lib gen).mantissa ^^^ (agle_iter lib gen).eps_bits))
      (agle_iter lib gen).gen

/-- The function `agle_next` of `agle_urandom.c`: the returned word and the
state left. -/
def agle_next (lib : Nat → Nat → Nat) (gen : AGLE) : Nat × AGLE :=
  agle_loop lib 4 0 gen

/-- The first `n` words that `main` stores by successive `agle_next` calls,
with the state left after them. -/
def agle_words (lib : Nat → Nat → Nat) : Nat → AGLE → List Nat × AGLE
  | 0, gen => ([], gen)
  | n + 1, gen =>
    ((agle_next lib gen).1 :: (agle_words lib n (agle_next lib gen).2).1,
     (agle_words lib n (agle_next lib gen).2).2)

end Urandom

namespace RngFinal

/-- The line `physical_jitter = (double)((t1_bus - t0_bus) & 0xFFFF) / 65535.0`. -/
def physical_jitter (t0_bus t1_bus : Nat) : Nat :=
  F64.div (F64.ofNat (((t1_bus % 2 ^ 64 + 2 ^ 64 - t0_bus % 2 ^ 64) % 2 ^ 64) &&& 0xFFFF))
    c_65535

/-- The line `jitter = (double)((t1 - t0) & 0xFF) / 256.0`. -/
def jitter (t0 t1 : Nat) : Nat :=
  F64.div (F64.ofNat (((t1 % 2 ^ 64 + 2 ^ 64 - t0 % 2 ^ 64) % 2 ^ 64) &&& 0xFF)) c_256

/-- One pass through the body of the `for` loop of `agle_next` in
`agle_rng_final.c`; `rdtsc k` is the value of the `k`-th `__rdtsc()` read of
the call, four reads per pass. -/
def agle_iter (lib : Nat → Nat → Nat) (rdtsc : Nat → Nat) (iter : Nat) (gen : AGLE) :
    Pass :=
  let physical_jitter := physical_jitter (rdtsc (4 * iter)) (rdtsc (4 * iter + 1))
  let jitter := jitter (rdtsc (4 * iter + 2)) (rdtsc (4 * iter + 3))
  let f_real0 :=
    F64.mul (F64.mul (F64.mul gen.r gen.x) (F64.sub F64.one gen.x))
      (F64.pow lib gen.x (F64.neg gen.alpha))
  let f_real1 := F64.add f_real0 (F64.mul jitter c_1em7)
  let f_real := F64.add f_real1 (F64.mul physical_jitter c_1em5)
  let f_quant := F64.toF32 f_real
  let epsilon := F64.sub f_real f_quant
  let acc := F64.sub (F64.add gen.epsilon_acc epsilon)
               (F64.floor (F64.add gen.epsilon_acc epsilon))
  let y := F64.sub f_quant (F64.floor f_quant)
  let x1 := F64.add (F64.add y (F64.mul gen.lambda epsilon))
              (F64.mul (F64.mul gen.lambda c_0_3) acc)
  let x2 := F64.sub x1 (F64.floor x1)
  { gen := { r := gen.r, alpha := gen.alpha, lambda := gen.lambda, x := x2,
             epsilon_acc := acc },
    mantissa := mantissa_of x2,
    eps_bits := eps_bits_of epsilon }

/-- The loop `for (iter = 0; iter < 4; iter++)` from `iter` with `todo` passes left. -/
def agle_loop (lib : Nat → Nat → Nat) (rdtsc : Nat → Nat) :
    Nat → Nat → Nat → AGLE → Nat × AGLE
  | 0, _, result, gen => (result, gen)
  | todo + 1, iter, result, gen =>
    agle_loop lib rdtsc todo (iter + 1)
      (result ^^^ ((agle_iter lib rdtsc iter gen).mantissa
                    ^^^ (agle_iter lib rdtsc iter gen).eps_bits))
      (agle_iter lib rdtsc iter gen).gen

/-- The function `agle_next` of `agle_rng_final.c`: the returned word and the
state left. -/
def agle_next (lib : Nat → Nat → Nat) (rdtsc : Nat → Nat) (gen : AGLE) : Nat × AGLE :=
  agle_loop lib rdtsc 4 0 0 gen

end RngFinal

namespace F64

/-- The value lies in the half-open unit interval: `0 <= a` and `a < 1`. -/
def inUnit (a : Nat) : Prop :=
  ¬ isNaN a ∧ ¬ isInf a ∧ 0 ≤ toInt a ∧ toInt a < 2 ^ 1074

instance (a : Nat) : Decidable (inUnit a) := by unfold inUnit; infer_instance

end F64

/-! ## Auxiliary functions for the proofs -/

/-- Step 1 of the loop body of `agle_urandom.c`: the value of `f_real`. -/
def f_real_of (lib : Nat → Nat → Nat) (gen : AGLE) : Nat :=
  F64.mul (F64.mul (F64.mul gen.r gen.x) (F64.sub F64.one gen.x))
    (F64.pow lib gen.x (F64.neg gen.alpha))

/-- Steps 2 to 7 of the loop body, whose text is the same in both files, as
a function of the state and of `f_real`. -/
def agle_tail (gen : AGLE) (f_real : Nat) : Pass :=
  let f_quant := F64.toF32 f_real
  let epsilon := F64.sub f_real f_quant
  let acc := F64.sub (F64.add gen.epsilon_acc epsilon)
               (F64.floor (F64.add gen.epsilon_acc epsilon))
  let y := F64.sub f_quant (F64.floor f_quant)
  let x1 := F64.add (F64.add y (F64.mul gen.lambda epsilon))
              (F64.mul (F64.mul gen.lambda c_0_3) acc)
  let x2 := F64.sub x1 (F64.floor x1)
  { gen := { r := gen.r, alpha := gen.alpha, lambda := gen.lambda, x := x2,
             epsilon_acc := acc },
    mantissa := mantissa_of x2,
    eps_bits := eps_bits_of epsilon }

/-- A state whose next `f_real` is NaN: `x` already NaN, or `x = 0.0` with
`alpha = 1.0`. -/
def Singular (g : AGLE) : Prop :=
  F64.isNaN g.x ∨ (g.x = F64.posZero ∧ g.alpha = F64.one)

/-- The specification's `frac(v) = v - floor(v)`. -/
def spec_frac (v : Nat) : Nat := F64.sub v (F64.floor v)

/-- The specification's `epsilon = f_real - f_quant`, with `f_quant` the
single-precision round trip of `f_real`. -/
def spec_epsilon (f_real : Nat) : Nat := F64.sub f_real (F64.toF32 f_real)

/-- The specification's `epsilon_acc <- frac(epsilon_acc + epsilon)`. -/
def spec_acc (gen : AGLE) (f_real : Nat) : Nat :=
  spec_frac (F64.add gen.epsilon_acc (spec_epsilon f_real))

/-- The specification's
`x <- frac(frac(f_quant) + lambda*epsilon + 0.3*lambda*epsilon_acc)`, read
with the updated accumulator, sums and products taken from left to right. -/
def spec_x (gen : AGLE) (f_real : Nat) : Nat :=
  spec_frac
    (F64.add
      (F64.add (spec_frac (F64.toF32 f_real)) (F64.mul gen.lambda (spec_epsilon f_real)))
      (F64.mul (F64.mul c_0_3 gen.lambda) (spec_acc gen f_real)))

/-! ## Bit extraction -/

theorem mantissa_of_eq (raw : Nat) : mantissa_of raw = (raw % 2 ^ 64 / 2 ^ 12) % 2 ^ 32 := by
  unfold mantissa_of
  have h : (0xFFFFFFFF : Nat) = 2 ^ 32 - 1 := by norm_num
  rw [h, Nat.and_pow_two_sub_one_eq_mod, Nat.shiftRight_eq_div_pow, Nat.mod_mod]

theorem eps_bits_of_eq (e : Nat) : eps_bits_of e = (e % 2 ^ 64) % 2 ^ 32 := by
  unfold eps_bits_of
  have h : (0xFFFFFFFF : Nat) = 2 ^ 32 - 1 := by norm_num
  rw [h, Nat.and_pow_two_sub_one_eq_mod, Nat.mod_mod]

theorem mantissa_of_lt (raw : Nat) : mantissa_of raw < 2 ^ 32 := by
  rw [mantissa_of_eq]; exact Nat.mod_lt _ (by norm_num)

theorem eps_bits_of_lt (e : Nat) : eps_bits_of e < 2 ^ 32 := by
  rw [eps_bits_of_eq]; exact Nat.mod_lt _ (by norm_num)

/-- C3: for 64-bit patterns `raw` and `eps_raw`, the extracted mantissa is
`(raw / 2^12) mod 2^32`, its bit `i` is bit `i + 12` of `raw`, the epsilon
bits are `eps_raw mod 2^32`, bit for bit the low 32 bits, and both values fit
in 32 bits. -/
theorem C3_bit_extraction (raw eps_raw : Nat) (hraw : raw < 2 ^ 64) (heps : eps_raw < 2 ^ 64) :
    mantissa_of raw = (raw / 2 ^ 12) % 2 ^ 32 ∧
    (∀ i, i < 32 → (mantissa_of raw).testBit i = raw.testBit (i + 12)) ∧
    (∀ i, 32 ≤ i → (mantissa_of raw).testBit i = false) ∧
    eps_bits_of eps_raw = eps_raw % 2 ^ 32 ∧
    (∀ i, i < 32 → (eps_bits_of eps_raw).testBit i = eps_raw.testBit i) ∧
    (∀ i, 32 ≤ i → (eps_bits_of eps_raw).testBit i = false) ∧
    mantissa_of raw < 2 ^ 32 ∧ eps_bits_of eps_raw < 2 ^ 32 := by
  have hm : mantissa_of raw = (raw / 2 ^ 12) % 2 ^ 32 := by
    rw [mantissa_of_eq, Nat.mod_eq_of_lt hraw]
  have he : eps_bits_of eps_raw = eps_raw % 2 ^ 32 := by
    rw [eps_bits_of_eq, Nat.mod_eq_of_lt heps]
  refine ⟨hm, ?_, ?_, he, ?_, ?_, mantissa_of_lt raw, eps_bits_of_lt eps_raw⟩
  · intro i hi
    rw [hm, Nat.testBit_mod_two_pow, ← Nat.shiftRight_eq_div_pow, Nat.testBit_shiftRight]
    simp [hi, Nat.add_comm]
  · intro i hi
    exact Nat.testBit_lt_two_pow
      (lt_of_lt_of_le (mantissa_of_lt raw) (Nat.pow_le_pow_right (by norm_num) hi))
  · intro i hi
    rw [he, Nat.testBit_mod_two_pow]
    simp [hi]
  · intro i hi
    exact Nat.testBit_lt_two_pow
      (lt_of_lt_of_le (eps_bits_of_lt eps_raw) (Nat.pow_le_pow_right (by norm_num) hi))

/-- C3 at the binary64 literals `0.9` and `1e-9`: the window of
`0x3FECCCCCCCCCCCCD` is `0xCCCCCCCC`, the low word of `0x3E112E0BE826D695`
is `0xE826D695`. -/
theorem C3_bit_extraction_witness :
    mantissa_of 0x3FECCCCCCCCCCCCD = 0xCCCCCCCC ∧
    eps_bits_of 0x3E112E0BE826D695 = 0xE826D695 ∧
    mantissa_of 0x3FECCCCCCCCCCCCD = (0x3FECCCCCCCCCCCCD / 2 ^ 12) % 2 ^ 32 ∧
    eps_bits_of 0x3E112E0BE826D695 = 0x3E112E0BE826D695 % 2 ^ 32 :=
  ⟨by decide, by decide,
   (C3_bit_extraction 0x3FECCCCCCCCCCCCD 0x3E112E0BE826D695 (by norm_num) (by norm_num)).1,
   (C3_bit_extraction 0x3FECCCCCCCCCCCCD 0x3E112E0BE826D695 (by norm_num) (by norm_num)).2.2.2.1⟩

/-! ## Structure of `agle_next` (deterministic variant) -/

theorem Urandom.agle_loop_lt (lib : Nat → Nat → Nat) (todo result : Nat) (gen : AGLE)
    (h : result < 2 ^ 32) : (Urandom.agle_loop lib todo result gen).1 < 2 ^ 32 := by
  induction todo generalizing result gen with
  | zero => simpa [Urandom.agle_loop] using h
  | succ n ih =>
    rw [Urandom.agle_loop]
    exact ih _ _ (Nat.xor_lt_two_pow h
      (Nat.xor_lt_two_pow (mantissa_of_lt _) (eps_bits_of_lt _)))

theorem Urandom.agle_iter_frame (lib : Nat → Nat → Nat) (gen : AGLE) :
    (Urandom.agle_iter lib gen).gen.r = gen.r ∧
    (Urandom.agle_iter lib gen).gen.alpha = gen.alpha ∧
    (Urandom.agle_iter lib gen).gen.lambda = gen.lambda :=
  ⟨rfl, rfl, rfl⟩

theorem Urandom.agle_loop_frame (lib : Nat → Nat → Nat) (todo result : Nat) (gen : AGLE) :
    (Urandom.agle_loop lib todo result gen).2.r = gen.r ∧
    (Urandom.agle_loop lib todo result gen).2.alpha = gen.alpha ∧
    (Urandom.agle_loop lib todo result gen).2.lambda = gen.lambda := by
  induction todo generalizing result gen with
  | zero => simp [Urandom.agle_loop]
  | succ n ih =>
    rw [Urandom.agle_loop]
    obtain ⟨h1, h2, h3⟩ := ih (result ^^^ ((Urandom.agle_iter lib gen).mantissa
      ^^^ (Urandom.agle_iter lib gen).eps_bits)) (Urandom.agle_iter lib gen).gen
    obtain ⟨f1, f2, f3⟩ := Urandom.agle_iter_frame lib gen
    exact ⟨h1.trans f1, h2.trans f2, h3.trans f3⟩

/-- C4: `agle_next` runs the loop body exactly four times, each pass from the
state the previous one left, and returns the single word
`0 ^ (m1 ^ e1) ^ (m2 ^ e2) ^ (m3 ^ e3) ^ (m4 ^ e4)`, which fits in 32 bits;
it is a total function of the state, with no failure result. -/
theorem C4_four_passes_one_word (lib : Nat → Nat → Nat) (gen : AGLE) :
    let p1 := Urandom.agle_iter lib gen
    let p2 := Urandom.agle_iter lib p1.gen
    let p3 := Urandom.agle_iter lib p2.gen
    let p4 := Urandom.agle_iter lib p3.gen
    Urandom.agle_next lib gen =
      (((((0 ^^^ (p1.mantissa ^^^ p1.eps_bits)) ^^^ (p2.mantissa ^^^ p2.eps_bits))
          ^^^ (p3.mantissa ^^^ p3.eps_bits)) ^^^ (p4.mantissa ^^^ p4.eps_bits)),
       p4.gen) ∧
    (Urandom.agle_next lib gen).1 < 2 ^ 32 := by
  intro p1 p2 p3 p4
  exact ⟨rfl, Urandom.agle_loop_lt lib 4 0 gen (by norm_num)⟩

/-- C5: in the deterministic variant, two generators initialised by
`agle_init` with the same `(r, alpha, lambda, x0)` give the same `n` output
words from `n` successive `agle_next` calls and end in the same state. -/
theorem C5_same_seed_same_stream (lib : Nat → Nat → Nat) (r alpha lambda x0 n : Nat)
    (g1 g2 : AGLE) (h1 : g1 = agle_init r alpha lambda x0)
    (h2 : g2 = agle_init r alpha lambda x0) :
    (Urandom.agle_words lib n g1).1 = (Urandom.agle_words lib n g2).1 ∧
    (Urandom.agle_words lib n g1).2 = (Urandom.agle_words lib n g2).2 := by
  subst h1 h2
  exact ⟨rfl, rfl⟩

/-- C5 at `r = 3.9999`, `alpha = 1.0`, `lambda = 3.0`, `x0 = 0.123456789`,
`n = 4`, with the library part of `pow` taken as the rounded reciprocal: both
generators give the words `0x55ACB227`, `0x136EAF0D`, `0x89AD3847`,
`0x4FF71D8B`. -/
theorem C5_same_seed_same_stream_witness :
    (Urandom.agle_words (fun x _ => F64.div F64.one x) 4
        (agle_init 0x400FFFCB923A29C7 0x3FF0000000000000 0x4008000000000000
          0x3FBF9ADD3739635F)).1
      = [0x55ACB227, 0x136EAF0D, 0x89AD3847, 0x4FF71D8B] ∧
    (Urandom.agle_words (fun x _ => F64.div F64.one x) 4
        (agle_init 0x400FFFCB923A29C7 0x3FF0000000000000 0x4008000000000000
          0x3FBF9ADD3739635F)).1
      = (Urandom.agle_words (fun x _ => F64.div F64.one x) 4
        (agle_init 0x400FFFCB923A29C7 0x3FF0000000000000 0x4008000000000000
          0x3FBF9ADD3739635F)).1 ∧
    (Urandom.agle_words (fun x _ => F64.div F64.one x) 4
        (agle_init 0x400FFFCB923A29C7 0x3FF0000000000000 0x4008000000000000
          0x3FBF9ADD3739635F)).2
      = (Urandom.agle_words (fun x _ => F64.div F64.one x) 4
        (agle_init 0x400FFFCB923A29C7 0x3FF0000000000000 0x4008000000000000
          0x3FBF9ADD3739635F)).2 :=
  ⟨by decide!,
   C5_same_seed_same_stream (fun x _ => F64.div F64.one x) 0x400FFFCB923A29C7
    0x3FF0000000000000 0x4008000000000000 0x3FBF9ADD3739635F 4 _ _ rfl rfl⟩

/-- C6: the words of `n + m` successive `agle_next` calls from `gen` are the
`n` words from `gen` followed by the `m` words from the state those `n` calls
left, and the final states agree; each call starts its XOR accumulator at 0
and reads nothing but the state. -/
theorem C6_words_concatenate (lib : Nat → Nat → Nat) (n m : Nat) (gen : AGLE) :
    (Urandom.agle_words lib (n + m) gen).1
      = (Urandom.agle_words lib n gen).1
        ++ (Urandom.agle_words lib m (Urandom.agle_words lib n gen).2).1 ∧
    (Urandom.agle_words lib (n + m) gen).2
      = (Urandom.agle_words lib m (Urandom.agle_words lib n gen).2).2 ∧
    Urandom.agle_next lib gen = Urandom.agle_loop lib 4 0 gen := by
  refine ⟨?_, ?_, rfl⟩
  · induction n generalizing gen with
    | zero => simp [Urandom.agle_words]
    | succ k ih =>
      have hk : k + 1 + m = (k + m) + 1 := by omega
      rw [hk]
      simp only [Urandom.agle_words, List.cons_append]
      rw [ih]
  · induction n generalizing gen with
    | zero => simp [Urandom.agle_words]
    | succ k ih =>
      have hk : k + 1 + m = (k + m) + 1 := by omega
      rw [hk]
      simp only [Urandom.agle_words]
      rw [ih]

/-- C7: `agle_next` leaves `r`, `alpha` and `lambda` as they were (only `x`
and `epsilon_acc` are assigned), and `agle_init` stores its four arguments in
`r`, `alpha`, `lambda`, `x` and sets `epsilon_acc` to `0.0`. -/
theorem C7_frame (lib : Nat → Nat → Nat) (gen : AGLE) (r alpha lambda x0 : Nat) :
    (Urandom.agle_next lib gen).2.r = gen.r ∧
    (Urandom.agle_next lib gen).2.alpha = gen.alpha ∧
    (Urandom.agle_next lib gen).2.lambda = gen.lambda ∧
    (agle_init r alpha lambda x0).r = r ∧
    (agle_init r alpha lambda x0).alpha = alpha ∧
    (agle_init r alpha lambda x0).lambda = lambda ∧
    (agle_init r alpha lambda x0).x = x0 ∧
    (agle_init r alpha lambda x0).epsilon_acc = F64.posZero := by
  obtain ⟨h1, h2, h3⟩ := Urandom.agle_loop_frame lib 4 0 gen
  exact ⟨h1, h2, h3, rfl, rfl, rfl, rfl, rfl⟩

/-! ## NaN operands -/

namespace F64

theorem isNaN_qNaN : isNaN qNaN := by decide

theorem add_nan_left (a b : Nat) (h : isNaN a) : add a b = qNaN := by
  simp [add, h]

theorem add_nan_right (a b : Nat) (h : isNaN b) : add a b = qNaN := by
  simp [add, h]

theorem sub_nan_left (a b : Nat) (h : isNaN a) : sub a b = qNaN := by
  simp [sub, h]

theorem sub_nan_right (a b : Nat) (h : isNaN b) : sub a b = qNaN := by
  simp [sub, h]

theorem mul_nan_left (a b : Nat) (h : isNaN a) : mul a b = qNaN := by
  simp [mul, h]

theorem mul_nan_right (a b : Nat) (h : isNaN b) : mul a b = qNaN := by
  simp [mul, h]

theorem floor_nan (a : Nat) (h : isNaN a) : floor a = qNaN := by
  simp [floor, h]

theorem toF32_nan (a : Nat) (h : isNaN a) : toF32 a = qNaN := by
  simp [toF32, h]

theorem not_inUnit_of_nan (a : Nat) (h : isNaN a) : ¬ inUnit a :=
  fun hu => hu.1 h

end F64

/-! ## The loop body split at `f_real` -/

theorem Urandom.agle_iter_eq_tail (lib : Nat → Nat → Nat) (gen : AGLE) :
    Urandom.agle_iter lib gen = agle_tail gen (f_real_of lib gen) := rfl

theorem agle_tail_of_nan (gen : AGLE) (f : Nat) (h : F64.isNaN f) :
    (agle_tail gen f).gen.x = F64.qNaN ∧ (agle_tail gen f).gen.epsilon_acc = F64.qNaN := by
  have n := F64.isNaN_qNaN
  have hq : F64.toF32 f = F64.qNaN := F64.toF32_nan f h
  have he : F64.sub f F64.qNaN = F64.qNaN := F64.sub_nan_left _ _ h
  have ha : F64.add gen.epsilon_acc F64.qNaN = F64.qNaN := F64.add_nan_right _ _ n
  have hy : F64.sub F64.qNaN (F64.floor F64.qNaN) = F64.qNaN := F64.sub_nan_left _ _ n
  have hx : F64.add (F64.add F64.qNaN (F64.mul gen.lambda F64.qNaN))
      (F64.mul (F64.mul gen.lambda c_0_3) F64.qNaN) = F64.qNaN := by
    rw [F64.add_nan_left _ _ n, F64.add_nan_left _ _ n]
  simp only [agle_tail, hq, he, ha, hy, hx, and_self]

/-! ## The seed `x0 = 0.0` with `alpha = 1.0` -/

namespace F64

theorem isZero_facts (z : Nat) (h : isZero z) : ¬ isNaN z ∧ ¬ isInf z ∧ mag z = 0 := by
  obtain ⟨he, hf⟩ := h
  refine ⟨?_, ?_, ?_⟩
  · intro hn; rw [hn.1] at he; exact absurd he (by norm_num)
  · intro hn; rw [hn.1] at he; exact absurd he (by norm_num)
  · simp [mag, he, hf]

theorem roundMag_zero : roundMag 0 1074 = 0 := by decide!

theorem isZero_pack_zero (b : Bool) : isZero (pack b 0) := by
  cases b <;> decide

theorem mul_isZero_left (z w : Nat) (hz : isZero z) (hw : ¬ isNaN w) (hi : ¬ isInf w) :
    isZero (mul z w) := by
  obtain ⟨h1, h2, h3⟩ := isZero_facts z hz
  simp only [mul, h1, hw, h2, hi, or_self, if_false, h3, Nat.zero_mul, roundMag_zero]
  exact isZero_pack_zero _

theorem mul_isZero_right (w z : Nat) (hz : isZero z) (hw : ¬ isNaN w) (hi : ¬ isInf w) :
    isZero (mul w z) := by
  obtain ⟨h1, h2, h3⟩ := isZero_facts z hz
  simp only [mul, h1, hw, h2, hi, or_self, if_false, h3, Nat.mul_zero, roundMag_zero]
  exact isZero_pack_zero _

theorem mul_isZero_posInf (z : Nat) (hz : isZero z) : mul z posInf = qNaN := by
  obtain ⟨h1, h2, h3⟩ := isZero_facts z hz
  have hp : isInf posInf := by decide
  have hn : ¬ isNaN posInf := by decide
  simp [mul, h1, h2, h3, hp, hn]

theorem mul_posZero_cases (r : Nat) : isNaN (mul r posZero) ∨ isZero (mul r posZero) := by
  have hz : isZero posZero := by decide
  by_cases hn : isNaN r
  · left; rw [mul_nan_left _ _ hn]; exact isNaN_qNaN
  · by_cases hi : isInf r
    · left
      obtain ⟨h1, h2, h3⟩ := isZero_facts posZero hz
      have : mul r posZero = qNaN := by simp [mul, hn, hi, h1, h2, h3]
      rw [this]; exact isNaN_qNaN
    · right; exact mul_isZero_right r posZero hz hn hi

theorem pow_pole (lib : Nat → Nat → Nat) : pow lib posZero (neg one) = posInf := by
  unfold pow
  rw [if_neg (show ¬ (isNaN posZero ∨ isNaN (neg one)) by decide!),
    if_neg (show ¬ isZero (neg one) by decide!),
    if_neg (show ¬ (posZero % 2 ^ 64 = one) by decide!),
    if_pos (show isZero posZero by decide!),
    if_pos (show sign (neg one) = 1 by decide!),
    if_pos (show isOddInt (neg one) by decide!)]
  decide!

end F64

theorem f_real_of_singular (lib : Nat → Nat → Nat) (g : AGLE) (h : Singular g) :
    F64.isNaN (f_real_of lib g) := by
  unfold f_real_of
  have n := F64.isNaN_qNaN
  rcases h with hx | ⟨hx, ha⟩
  · rw [F64.mul_nan_right _ _ hx, F64.mul_nan_left _ _ n, F64.mul_nan_left _ _ n]
    exact n
  · rw [hx, ha, F64.pow_pole]
    have h1 : F64.sub F64.one F64.posZero = F64.one := by decide!
    rw [h1]
    rcases F64.mul_posZero_cases g.r with hz | hz
    · rw [F64.mul_nan_left _ _ hz, F64.mul_nan_left _ _ n]; exact n
    · have h2 : F64.isZero (F64.mul (F64.mul g.r F64.posZero) F64.one) :=
        F64.mul_isZero_left _ _ hz (by decide) (by decide)
      rw [F64.mul_isZero_posInf _ h2]; exact n

theorem Urandom.agle_iter_singular (lib : Nat → Nat → Nat) (g : AGLE) (h : Singular g) :
    F64.isNaN (Urandom.agle_iter lib g).gen.x ∧
    F64.isNaN (Urandom.agle_iter lib g).gen.epsilon_acc := by
  rw [Urandom.agle_iter_eq_tail]
  obtain ⟨h1, h2⟩ := agle_tail_of_nan g _ (f_real_of_singular lib g h)
  rw [h1, h2]; exact ⟨F64.isNaN_qNaN, F64.isNaN_qNaN⟩

theorem Urandom.agle_loop_singular (lib : Nat → Nat → Nat) (todo result : Nat) (g : AGLE)
    (h : Singular g) :
    F64.isNaN (Urandom.agle_loop lib (todo + 1) result g).2.x ∧
    F64.isNaN (Urandom.agle_loop lib (todo + 1) result g).2.epsilon_acc := by
  induction todo generalizing result g with
  | zero => exact Urandom.agle_iter_singular lib g h
  | succ k ih =>
    rw [Urandom.agle_loop]
    exact ih _ _ (Or.inl (Urandom.agle_iter_singular lib g h).1)

theorem Urandom.agle_words_singular (lib : Nat → Nat → Nat) (n : Nat) (g : AGLE)
    (h : Singular g) :
    F64.isNaN (Urandom.agle_words lib (n + 1) g).2.x ∧
    F64.isNaN (Urandom.agle_words lib (n + 1) g).2.epsilon_acc := by
  induction n generalizing g with
  | zero => exact Urandom.agle_loop_singular lib 3 0 g h
  | succ k ih =>
    rw [Urandom.agle_words]
    exact ih _ (Or.inl (Urandom.agle_loop_singular lib 3 0 g h).1)

/-- C8 at the failing seed: `agle_init` stores `x0 = 0.0` and `alpha = 1.0`
as given, with no check and no rejecting result, and for every `r`, every
`lambda`, every library `pow` and every `n >= 1`, after `n` calls of
`agle_next` both `x` and `epsilon_acc` are NaN: no defined outcome replaces
the NaN stream. -/
theorem C8_zero_seed_carries_nan (lib : Nat → Nat → Nat) (r lambda n : Nat) (hn : 1 ≤ n) :
    (agle_init r F64.one lambda F64.posZero).x = F64.posZero ∧
    (agle_init r F64.one lambda F64.posZero).alpha = F64.one ∧
    F64.isNaN (Urandom.agle_words lib n (agle_init r F64.one lambda F64.posZero)).2.x ∧
    F64.isNaN
      (Urandom.agle_words lib n (agle_init r F64.one lambda F64.posZero)).2.epsilon_acc := by
  obtain ⟨k, rfl⟩ : ∃ k, n = k + 1 := ⟨n - 1, by omega⟩
  exact ⟨rfl, rfl,
    Urandom.agle_words_singular lib k _ (Or.inr ⟨rfl, rfl⟩)⟩

/-- C8 at `r = 3.9999`, `alpha = 1.0`, `lambda = 3.0`, `x0 = 0.0`, `n = 3`,
with a library `pow` that returns NaN for a NaN base. -/
theorem C8_zero_seed_carries_nan_witness :
    (1 ≤ 3) ∧
    F64.isNaN (Urandom.agle_words (fun _ _ => F64.qNaN) 3
      (agle_init 0x400FFFCB923A29C7 F64.one 0x4008000000000000 F64.posZero)).2.x ∧
    F64.isNaN (Urandom.agle_words (fun _ _ => F64.qNaN) 3
      (agle_init 0x400FFFCB923A29C7 F64.one 0x4008000000000000 F64.posZero)).2.epsilon_acc :=
  ⟨by norm_num,
   (C8_zero_seed_carries_nan (fun _ _ => F64.qNaN) 0x400FFFCB923A29C7 0x4008000000000000 3
      (by norm_num)).2.2.1,
   (C8_zero_seed_carries_nan (fun _ _ => F64.qNaN) 0x400FFFCB923A29C7 0x4008000000000000 3
      (by norm_num)).2.2.2⟩

/-! ## A zero exponent: `pow` is fixed by Annex F and the library does not matter -/

theorem F64.pow_zero_exponent (lib : Nat → Nat → Nat) (x y : Nat) (h : F64.isZero y)
    (hx : ¬ F64.isNaN x) : F64.pow lib x y = F64.one := by
  have hy : ¬ F64.isNaN y := (F64.isZero_facts y h).1
  unfold F64.pow
  rw [if_neg (not_or.mpr ⟨hx, hy⟩), if_pos h]

theorem f_real_of_nan_state (lib : Nat → Nat → Nat) (g : AGLE) (hx : F64.isNaN g.x) :
    f_real_of lib g = F64.qNaN := by
  unfold f_real_of
  rw [F64.mul_nan_right _ _ hx, F64.mul_nan_left _ _ F64.isNaN_qNaN,
    F64.mul_nan_left _ _ F64.isNaN_qNaN]

theorem Urandom.agle_iter_lib_irrelevant (lib lib2 : Nat → Nat → Nat) (g : AGLE)
    (h : F64.isZero (F64.neg g.alpha)) :
    Urandom.agle_iter lib g = Urandom.agle_iter lib2 g := by
  rw [Urandom.agle_iter_eq_tail, Urandom.agle_iter_eq_tail]
  by_cases hx : F64.isNaN g.x
  · rw [f_real_of_nan_state lib g hx, f_real_of_nan_state lib2 g hx]
  · unfold f_real_of
    rw [F64.pow_zero_exponent lib _ _ h hx, F64.pow_zero_exponent lib2 _ _ h hx]

theorem Urandom.agle_loop_lib_irrelevant (lib lib2 : Nat → Nat → Nat) (todo result : Nat)
    (g : AGLE) (h : F64.isZero (F64.neg g.alpha)) :
    Urandom.agle_loop lib todo result g = Urandom.agle_loop lib2 todo result g := by
  induction todo generalizing result g with
  | zero => rfl
  | succ k ih =>
    rw [Urandom.agle_loop, Urandom.agle_loop, Urandom.agle_iter_lib_irrelevant lib lib2 g h]
    exact ih _ _ h

/-- C1 at two failing inputs, whatever the library part of `pow` returns.
With `r = 3.9999`, `alpha = 0.0`, `lambda = 3.0`, `x0 = 1e-14` the first
`agle_next` call returns `0x2475DFC1` and leaves `epsilon_acc = 1.0`, outside
`[0,1)`.  With `r = 3.9999999999999996`, `alpha = 0.0`, `lambda = 0.25`,
`x0 = 0.1464466094067263` the second pass of the first call leaves
`x = 1.0`. -/
theorem C1_unit_interval_escapes (lib : Nat → Nat → Nat) :
    Urandom.agle_next lib
        (agle_init 0x400FFFCB923A29C7 0 0x4008000000000000 0x3D06849B86A12B9B)
      = (0x2475DFC1,
         { r := 0x400FFFCB923A29C7, alpha := 0, lambda := 0x4008000000000000,
           x := 0x3FECCCCCCCCD26DC, epsilon_acc := F64.one }) ∧
    ¬ F64.inUnit F64.one ∧
    (Urandom.agle_iter lib (Urandom.agle_iter lib
        (agle_init 0x400FFFFFFFFFFFFF 0 0x3FD0000000000000 0x3FC2BEC333018869)).gen).gen
      = { r := 0x400FFFFFFFFFFFFF, alpha := 0, lambda := 0x3FD0000000000000,
          x := F64.one, epsilon_acc := 0 } := by
  refine ⟨?_, by decide!, ?_⟩
  · have h := Urandom.agle_loop_lib_irrelevant lib (fun _ _ => F64.qNaN) 4 0
      (agle_init 0x400FFFCB923A29C7 0 0x4008000000000000 0x3D06849B86A12B9B) (by decide!)
    unfold Urandom.agle_next
    rw [h]
    decide!
  · have h := Urandom.agle_iter_lib_irrelevant lib (fun _ _ => F64.qNaN)
      (agle_init 0x400FFFFFFFFFFFFF 0 0x3FD0000000000000 0x3FC2BEC333018869) (by decide!)
    rw [h, Urandom.agle_iter_lib_irrelevant lib (fun _ _ => F64.qNaN) _ (by decide!)]
    decide!

/-! ## The jitter probe -/

/-- C9 at the failing input `t0 = 0`, `t1 = 65535`: `physical_jitter` is
exactly `1.0`, outside `[0,1)`, while `jitter` at its largest masked value
`0xFF` is `0.99609375`. -/
theorem C9_physical_jitter_reaches_one :
    RngFinal.physical_jitter 0 65535 = F64.one ∧
    ¬ F64.inUnit (RngFinal.physical_jitter 0 65535) ∧
    RngFinal.jitter 0 255 = 0x3FEFE00000000000 := by
  decide!

/-! ## The leading-bit search -/

namespace F64

theorem ilog2Aux_eq (j : Nat) : ∀ (n acc k : Nat), n < 2 ^ 2 ^ j → 2 ^ k ≤ n → n < 2 ^ (k + 1) →
    ilog2Aux j n acc = acc + k := by
  induction j with
  | zero =>
    intro n acc k h1 h2 h3
    have hn : n = 1 := by
      have : 0 < 2 ^ k := Nat.pow_pos (by norm_num)
      simp at h1; omega
    subst hn
    have hk : k = 0 := by
      rcases Nat.eq_zero_or_pos k with h | h
      · exact h
      · have : 2 ^ 1 ≤ 2 ^ k := Nat.pow_le_pow_right (by norm_num) h
        omega
    subst hk
    simp [ilog2Aux]
  | succ j ih =>
    intro n acc k h1 h2 h3
    have hp : 0 < 2 ^ 2 ^ j := Nat.pow_pos (by norm_num)
    rw [ilog2Aux]
    by_cases h : 2 ^ 2 ^ j ≤ n
    · rw [if_pos h]
      have hsplit : 2 ^ 2 ^ (j + 1) = 2 ^ 2 ^ j * 2 ^ 2 ^ j := by
        rw [← Nat.pow_add]; congr 1; rw [Nat.pow_succ]; omega
      have hjk : 2 ^ j ≤ k := by
        have : 2 ^ 2 ^ j < 2 ^ (k + 1) := lt_of_le_of_lt h h3
        have := (Nat.pow_lt_pow_iff_right (by norm_num : 1 < 2)).mp this
        omega
      have hk : 2 ^ k = 2 ^ (k - 2 ^ j) * 2 ^ 2 ^ j := by
        rw [← Nat.pow_add]; congr 1; omega
      have hk1 : 2 ^ (k + 1) = 2 ^ (k - 2 ^ j + 1) * 2 ^ 2 ^ j := by
        rw [← Nat.pow_add]; congr 1; omega
      have a1 : n / 2 ^ 2 ^ j < 2 ^ 2 ^ j := by
        apply Nat.div_lt_of_lt_mul; rw [← hsplit]; exact h1
      have a2 : 2 ^ (k - 2 ^ j) ≤ n / 2 ^ 2 ^ j := by
        rw [Nat.le_div_iff_mul_le hp, ← hk]; exact h2
      have a3 : n / 2 ^ 2 ^ j < 2 ^ (k - 2 ^ j + 1) := by
        rw [Nat.div_lt_iff_lt_mul hp, ← hk1]; exact h3
      rw [ih _ _ _ a1 a2 a3]
      omega
    · rw [if_neg h]
      exact ih n acc k (by omega) h2 h3

theorem ilog2_eq (n k : Nat) (h2 : 2 ^ k ≤ n) (h3 : n < 2 ^ (k + 1)) (hk : k < 8192) :
    ilog2 n = k := by
  have h1 : n < 2 ^ 2 ^ 13 :=
    lt_of_lt_of_le h3 (Nat.pow_le_pow_right (by norm_num) (by norm_num; omega))
  have := ilog2Aux_eq 13 n 0 k h1 h2 h3
  simpa [ilog2] using this

theorem ilog2Aux_small (j : Nat) : ∀ (n acc : Nat), n < 2 → ilog2Aux j n acc = acc := by
  induction j with
  | zero => intro n acc _; rfl
  | succ j ih =>
    intro n acc h
    have hp : 2 ≤ 2 ^ 2 ^ j := by
      calc 2 = 2 ^ 1 := by norm_num
        _ ≤ 2 ^ 2 ^ j := Nat.pow_le_pow_right (by norm_num) (Nat.one_le_two_pow)
    rw [ilog2Aux, if_neg (by omega)]
    exact ih n acc h

/-- Below `2^(k+1)` the leading bit is at most at position `k`. -/
theorem ilog2_le (n k : Nat) (h : n < 2 ^ (k + 1)) (hk : k < 8192) : ilog2 n ≤ k := by
  rcases Nat.lt_or_ge n 2 with h0 | h0
  · have := ilog2Aux_small 13 n 0 h0
    simp [ilog2, this]
  · have hn : n ≠ 0 := by omega
    have hlo : 2 ^ Nat.log2 n ≤ n := Nat.log2_self_le hn
    have hhi : n < 2 ^ (Nat.log2 n + 1) := Nat.lt_log2_self
    have hlk : Nat.log2 n ≤ k := by
      have : 2 ^ Nat.log2 n < 2 ^ (k + 1) := lt_of_le_of_lt hlo h
      have := (Nat.pow_lt_pow_iff_right (by norm_num : 1 < 2)).mp this
      omega
    rw [ilog2_eq n (Nat.log2 n) hlo hhi (by omega)]
    exact hlk

end F64

/-! ## Rounding a representable magnitude returns its own bits -/

namespace F64

theorem rne_zero_shift (n : Nat) : rne n 0 = n := by
  unfold rne
  rw [Nat.pow_zero, Nat.mod_one, Nat.div_one, if_neg (by omega)]

theorem roundMag_small (n : Nat) (h : n < 2 ^ 53) : roundMag n 0 = n := by
  have hl : ilog2 n ≤ 52 := ilog2_le n 52 h (by norm_num)
  have hs : max 0 (ilog2 n - 52) = 0 := by omega
  unfold roundMag
  simp only [hs, rne_zero_shift, Nat.sub_zero, Nat.zero_mul, Nat.zero_add]
  have : ¬ posInf ≤ n := by
    have : (2 : Nat) ^ 53 ≤ posInf := by decide
    omega
  rw [if_neg this]

theorem frac_lt (a : Nat) : frac a < 2 ^ 52 := Nat.mod_lt _ (by norm_num)

theorem expo_lt (a : Nat) : expo a < 2048 := Nat.mod_lt _ (by norm_num)

theorem sign_le_one (a : Nat) : sign a = 0 ∨ sign a = 1 := by
  unfold sign; omega

end F64

/-! ## The inner iteration against the specification's formulas -/

theorem F64.mul_comm (a b : Nat) : F64.mul a b = F64.mul b a := by
  have hs : decide (F64.sign a ≠ F64.sign b) = decide (F64.sign b ≠ F64.sign a) := by
    by_cases h : F64.sign a = F64.sign b
    · simp [h]
    · have h2 : ¬ F64.sign b = F64.sign a := fun e => h e.symm
      simp [h, h2]
  unfold F64.mul
  rw [hs, Nat.mul_comm (F64.mag a) (F64.mag b)]
  by_cases ha : F64.isNaN a <;> by_cases hb : F64.isNaN b <;>
    by_cases hia : F64.isInf a <;> by_cases hib : F64.isInf b <;>
    by_cases hma : F64.mag a = 0 <;> by_cases hmb : F64.mag b = 0 <;>
    simp [ha, hb, hia, hib, hma, hmb]

/-- C2: one pass of the deterministic loop body computes
`epsilon = f_real - f_quant`, then `epsilon_acc = frac(epsilon_acc + epsilon)`,
then `x = frac(frac(f_quant) + lambda*epsilon + 0.3*lambda*epsilon_acc)` with
the updated accumulator, where `frac(v) = v - floor(v)`; the extracted bits
are those of the new `x` and of `epsilon`. -/
theorem C2_inner_iteration (lib : Nat → Nat → Nat) (gen : AGLE) :
    (Urandom.agle_iter lib gen).gen.epsilon_acc = spec_acc gen (f_real_of lib gen) ∧
    (Urandom.agle_iter lib gen).gen.x = spec_x gen (f_real_of lib gen) ∧
    (Urandom.agle_iter lib gen).eps_bits = eps_bits_of (spec_epsilon (f_real_of lib gen)) ∧
    (Urandom.agle_iter lib gen).mantissa = mantissa_of (spec_x gen (f_real_of lib gen)) := by
  have hc : F64.mul c_0_3 gen.lambda = F64.mul gen.lambda c_0_3 := F64.mul_comm _ _
  refine ⟨rfl, ?_, rfl, ?_⟩
  · unfold spec_x; rw [hc]; rfl
  · unfold spec_x; rw [hc]; rfl

/-! ## The jitter variant with zero jitter -/

namespace F64

end F64

namespace F64

theorem ilog2_eq_log2 (n : Nat) (h0 : n ≠ 0) (h : n < 2 ^ 8192) : ilog2 n = Nat.log2 n := by
  have hlo : 2 ^ Nat.log2 n ≤ n := Nat.log2_self_le h0
  have hhi : n < 2 ^ (Nat.log2 n + 1) := Nat.lt_log2_self
  have hlk : Nat.log2 n < 8192 := by
    have : 2 ^ Nat.log2 n < 2 ^ 8192 := lt_of_le_of_lt hlo h
    exact (Nat.pow_lt_pow_iff_right (by norm_num : 1 < 2)).mp this
  exact ilog2_eq n _ hlo hhi hlk

theorem ilog2_bounds (n : Nat) (h0 : n ≠ 0) (h : n < 2 ^ 8192) :
    2 ^ ilog2 n ≤ n ∧ n < 2 ^ (ilog2 n + 1) := by
  rw [ilog2_eq_log2 n h0 h]
  exact ⟨Nat.log2_self_le h0, Nat.lt_log2_self⟩

theorem rne_le (N sh : Nat) : rne N sh ≤ N / 2 ^ sh + 1 := by
  unfold rne; split <;> omega

theorem le_rne (N sh : Nat) : N / 2 ^ sh ≤ rne N sh := by
  unfold rne; split <;> omega

theorem rne_of_dvd (N sh : Nat) (h : N % 2 ^ sh = 0) : rne N sh = N / 2 ^ sh := by
  have hp : 0 < 2 ^ sh := Nat.pow_pos (by norm_num)
  unfold rne
  rw [h, if_neg]
  rintro (h1 | ⟨h1, _⟩) <;> omega

/-- Fields of the pattern `d * 2^52 + q` for a significand `q <= 2^53` that
is normal unless `d = 0`. -/
theorem mag_of_bits (d q : Nat) (hq : q ≤ 2 ^ 53) (hd : d = 0 ∨ 2 ^ 52 ≤ q)
    (hb : d * 2 ^ 52 + q < 2047 * 2 ^ 52) :
    mag (d * 2 ^ 52 + q) = q * 2 ^ d ∧ expo (d * 2 ^ 52 + q) ≠ 2047 ∧
      d * 2 ^ 52 + q < 2 ^ 63 := by
  have h63 : d * 2 ^ 52 + q < 2 ^ 63 := by norm_num at hb ⊢; omega
  by_cases h1 : q < 2 ^ 52
  · have hd0 : d = 0 := by
      rcases hd with h | h
      · exact h
      · omega
    subst hd0
    have he : expo (0 * 2 ^ 52 + q) = 0 := by
      unfold expo; norm_num at h1 ⊢; omega
    have hf : frac (0 * 2 ^ 52 + q) = q := by
      unfold frac; norm_num at h1 ⊢; omega
    refine ⟨?_, by rw [he]; norm_num, h63⟩
    unfold mag; rw [if_pos he, hf]; simp
  · by_cases h2 : q < 2 ^ 53
    · have he : expo (d * 2 ^ 52 + q) = d + 1 := by
        unfold expo; norm_num at h1 h2 hb ⊢; omega
      have hf : frac (d * 2 ^ 52 + q) = q - 2 ^ 52 := by
        unfold frac; norm_num at h1 h2 hb ⊢; omega
      have hd2 : d + 1 ≠ 2047 := by norm_num at h1 h2 hb ⊢; omega
      refine ⟨?_, by rw [he]; exact hd2, h63⟩
      unfold mag; rw [if_neg (by rw [he]; omega), he, hf]
      have : 2 ^ 52 + (q - 2 ^ 52) = q := by omega
      rw [this]; simp
    · have hq2 : q = 2 ^ 53 := by omega
      subst hq2
      have he : expo (d * 2 ^ 52 + 2 ^ 53) = d + 2 := by
        unfold expo; norm_num at hb ⊢; omega
      have hf : frac (d * 2 ^ 52 + 2 ^ 53) = 0 := by
        unfold frac; norm_num at hb ⊢; omega
      have hd2 : d + 2 ≠ 2047 := by norm_num at hb ⊢; omega
      refine ⟨?_, by rw [he]; exact hd2, h63⟩
      unfold mag; rw [if_neg (by rw [he]; omega), he, hf]
      have : d + 2 - 1 = d + 1 := by omega
      rw [this, Nat.pow_succ]; ring

/-- A rounded magnitude below the overflow threshold decodes to the rounded
significand times its scale. -/
theorem mag_roundMag (N k : Nat) (hN : N < 2 ^ 8192) (hb : roundMag N k < posInf) :
    mag (roundMag N k)
        = rne N (max k (ilog2 N - 52)) * 2 ^ (max k (ilog2 N - 52) - k) ∧
      expo (roundMag N k) ≠ 2047 ∧ roundMag N k < 2 ^ 63 := by
  have hp : posInf = 2047 * 2 ^ 52 := by decide
  have hr : roundMag N k
      = (max k (ilog2 N - 52) - k) * 2 ^ 52 + rne N (max k (ilog2 N - 52)) := by
    unfold roundMag at hb ⊢
    simp only at hb ⊢
    split
    · rename_i h; rw [if_pos h] at hb; omega
    · rfl
  rw [hr] at hb ⊢
  generalize hsh : max k (ilog2 N - 52) = sh at hb ⊢
  have hpos : 0 < 2 ^ sh := Nat.pow_pos (by norm_num)
  -- the quotient is below 2^53
  have hquot : N / 2 ^ sh < 2 ^ 53 := by
    rcases Nat.eq_zero_or_pos N with h0 | h0
    · subst h0; simp
    · have hbd := (ilog2_bounds N (by omega) hN).2
      rw [Nat.div_lt_iff_lt_mul hpos, ← Nat.pow_add]
      exact lt_of_lt_of_le hbd (Nat.pow_le_pow_right (by norm_num) (by omega))
  have hq : rne N sh ≤ 2 ^ 53 := le_trans (rne_le N sh) (by omega)
  have hd : sh - k = 0 ∨ 2 ^ 52 ≤ rne N sh := by
    by_cases hk : sh - k = 0
    · exact Or.inl hk
    · right
      have hsh2 : sh = ilog2 N - 52 := by omega
      have hN0 : N ≠ 0 := by
        intro h0; subst h0
        have : ilog2 0 = 0 := ilog2Aux_small 13 0 0 (by norm_num)
        omega
      have hbd := (ilog2_bounds N hN0 hN).1
      have h52 : 2 ^ 52 ≤ N / 2 ^ sh := by
        rw [Nat.le_div_iff_mul_le hpos, ← Nat.pow_add]
        exact le_trans (Nat.pow_le_pow_right (by norm_num) (by omega)) hbd
      exact le_trans h52 (le_rne N sh)
  exact mag_of_bits _ _ hq hd (by rw [← hp]; exact hb)

end F64

namespace F64

theorem ilog2_zero : ilog2 0 = 0 := ilog2Aux_small 13 0 0 (by norm_num)

/-- A magnitude with at most 53 significant bits, below the overflow
threshold, is rounded to a finite pattern that decodes to itself. -/
theorem roundMag_representable (m e : Nat) (hm : m < 2 ^ 53)
    (hN : m * 2 ^ e < 2 ^ (2097 + 1)) :
    roundMag (m * 2 ^ e) 0 < posInf ∧ mag (roundMag (m * 2 ^ e) 0) = m * 2 ^ e ∧
      expo (roundMag (m * 2 ^ e) 0) ≠ 2047 ∧ roundMag (m * 2 ^ e) 0 < 2 ^ 63 := by
  rcases Nat.eq_zero_or_pos m with hm0 | hm0
  · subst hm0
    rw [Nat.zero_mul, roundMag_small 0 (by norm_num)]
    decide
  · have hp : posInf = 2047 * 2 ^ 52 := by decide
    have h8 : m * 2 ^ e < 2 ^ 8192 :=
      lt_of_lt_of_le hN (Nat.pow_le_pow_right (by norm_num) (by norm_num))
    have he : e < 2097 + 1 := by
      have h1 : 2 ^ e ≤ m * 2 ^ e := Nat.le_mul_of_pos_left _ hm0
      exact (Nat.pow_lt_pow_iff_right (by norm_num : 1 < 2)).mp (lt_of_le_of_lt h1 hN)
    have hlt0 : m * 2 ^ e < 2 ^ (52 + e + 1) := by
      have : 2 ^ (52 + e + 1) = 2 ^ 53 * 2 ^ e := by
        rw [← Nat.pow_add]; congr 1; omega
      rw [this]
      exact Nat.mul_lt_mul_of_pos_right hm (Nat.pow_pos (by norm_num))
    have hl1 := ilog2_le (m * 2 ^ e) (52 + e) hlt0 (by omega)
    have hl2 := ilog2_le (m * 2 ^ e) 2097 hN (by norm_num)
    have hpos0 : 0 < m * 2 ^ e := Nat.mul_pos hm0 (Nat.pow_pos (by norm_num))
    have hbd := (ilog2_bounds (m * 2 ^ e) (by omega) h8).2
    clear hN
    generalize hNdef : m * 2 ^ e = N at h8 hl1 hl2 hbd hpos0 ⊢
    generalize hsh : max 0 (ilog2 N - 52) = sh
    have hpos : 0 < 2 ^ sh := Nat.pow_pos (by norm_num)
    have hshle : sh ≤ e ∧ sh ≤ 2045 := by clear h8; omega
    have hdvd : N % 2 ^ sh = 0 := by
      rw [← hNdef]
      have hes : e - sh + sh = e := by clear h8; omega
      have : 2 ^ e = 2 ^ (e - sh) * 2 ^ sh := by
        rw [← Nat.pow_add, hes]
      rw [this, ← Nat.mul_assoc]
      exact Nat.mul_mod_left _ _
    have hquot : N / 2 ^ sh < 2 ^ 53 := by
      rw [Nat.div_lt_iff_lt_mul hpos, ← Nat.pow_add]
      exact lt_of_lt_of_le hbd (Nat.pow_le_pow_right (by norm_num) (by clear h8; omega))
    have hrne : rne N sh = N / 2 ^ sh := rne_of_dvd N sh hdvd
    have hlt : roundMag N 0 < posInf := by
      unfold roundMag
      simp only [hsh, hrne, Nat.sub_zero]
      have hb : sh * 2 ^ 52 + N / 2 ^ sh < posInf := by
        have : sh * 2 ^ 52 ≤ 2045 * 2 ^ 52 := Nat.mul_le_mul_right _ hshle.2
        rw [hp]; clear h8; omega
      rw [if_neg (by clear h8; omega)]; exact hb
    obtain ⟨h1, h2, h3⟩ := mag_roundMag N 0 h8 hlt
    refine ⟨hlt, ?_, h2, h3⟩
    rw [h1, hsh, hrne, Nat.sub_zero]
    exact Nat.div_mul_cancel (Nat.dvd_of_mod_eq_zero hdvd)

theorem pack_fields (s : Bool) (b : Nat) (hb : b < 2 ^ 63) :
    sign (pack s b) = (if s then 1 else 0) ∧ expo (pack s b) = expo b ∧
      frac (pack s b) = frac b := by
  cases s
  · refine ⟨?_, rfl, rfl⟩
    simp only [pack]; unfold sign; norm_num at hb ⊢; omega
  · refine ⟨?_, ?_, ?_⟩
    · simp only [pack]; unfold sign; norm_num at hb ⊢; omega
    · simp only [pack]; unfold expo; norm_num at hb ⊢; omega
    · simp only [pack]; unfold frac; norm_num at hb ⊢; omega

theorem mag_pack (s : Bool) (b : Nat) (hb : b < 2 ^ 63) : mag (pack s b) = mag b := by
  obtain ⟨_, h2, h3⟩ := pack_fields s b hb
  unfold mag; rw [h2, h3]

theorem mag_lt (a : Nat) (h : expo a ≠ 2047) : mag a < 2 ^ (2097 + 1) := by
  have hf := frac_lt a
  have he := expo_lt a
  unfold mag
  split
  · exact lt_of_lt_of_le hf (Nat.pow_le_pow_right (by norm_num) (by norm_num))
  · have h1 : 2 ^ 52 + frac a < 2 ^ 53 := by omega
    have h2 : 2 ^ (expo a - 1) ≤ 2 ^ 2045 := Nat.pow_le_pow_right (by norm_num) (by omega)
    calc (2 ^ 52 + frac a) * 2 ^ (expo a - 1)
        < 2 ^ 53 * 2 ^ (expo a - 1) := Nat.mul_lt_mul_of_pos_right h1 (Nat.pow_pos (by norm_num))
      _ ≤ 2 ^ 53 * 2 ^ 2045 := Nat.mul_le_mul_left _ h2
      _ = 2 ^ (2097 + 1) := by rw [← Nat.pow_add]

theorem finite_iff (a : Nat) : (¬ isNaN a ∧ ¬ isInf a) ↔ expo a ≠ 2047 := by
  unfold isNaN isInf
  constructor
  · rintro ⟨h1, h2⟩ h
    by_cases hf : frac a = 0
    · exact h2 ⟨h, hf⟩
    · exact h1 ⟨h, hf⟩
  · intro h; exact ⟨fun x => h x.1, fun x => h x.1⟩

end F64

namespace F64

theorem neg_fields (a : Nat) :
    sign (neg a) = 1 - sign a ∧ expo (neg a) = expo a ∧ frac (neg a) = frac a := by
  unfold neg
  rcases sign_le_one a with hs | hs
  · rw [if_neg (by omega), hs]
    unfold sign expo frac at *
    norm_num at hs ⊢
    omega
  · rw [if_pos hs, hs]
    unfold sign expo frac at *
    norm_num at hs ⊢
    omega

theorem mag_neg (a : Nat) : mag (neg a) = mag a := by
  obtain ⟨_, h2, h3⟩ := neg_fields a
  unfold mag; rw [h2, h3]

/-- A magnitude below `2^1074` (a value below one) rounds to a pattern no
larger than that of `1.0`. -/
theorem roundMag_le_one (N : Nat) (h : N < 2 ^ (1073 + 1)) : roundMag N 0 ≤ one := by
  have h8 : N < 2 ^ 8192 :=
    lt_of_lt_of_le h (Nat.pow_le_pow_right (by norm_num) (by norm_num))
  have hl := ilog2_le N 1073 h (by norm_num)
  clear h
  rcases Nat.eq_zero_or_pos N with h0 | h0
  · subst h0; rw [roundMag_small 0 (by norm_num)]; decide
  · have hbd := (ilog2_bounds N (by omega) h8).2
    clear h8
    have hdef : roundMag N 0
        = if posInf ≤ (max 0 (ilog2 N - 52) - 0) * 2 ^ 52 + rne N (max 0 (ilog2 N - 52))
          then posInf
          else (max 0 (ilog2 N - 52) - 0) * 2 ^ 52 + rne N (max 0 (ilog2 N - 52)) := rfl
    rw [hdef]
    generalize hsh : max 0 (ilog2 N - 52) = sh
    have hpos : 0 < 2 ^ sh := Nat.pow_pos (by norm_num)
    have hquot : N / 2 ^ sh < 2 ^ 53 := by
      rw [Nat.div_lt_iff_lt_mul hpos, ← Nat.pow_add]
      exact lt_of_lt_of_le hbd (Nat.pow_le_pow_right (by norm_num) (by omega))
    have hr := rne_le N sh
    have hs : sh * 2 ^ 52 ≤ 1021 * 2 ^ 52 := Nat.mul_le_mul_right _ (by omega)
    have ho : one = 1023 * 2 ^ 52 := by decide
    have hp : posInf = 2047 * 2 ^ 52 := by decide
    rw [Nat.sub_zero, if_neg (by rw [hp]; omega), ho]
    omega

/-- The pattern of `floor v` for a finite `v`: finite, with the sign of `v`,
and an exact magnitude `N` at most one unit away from that of `v` on the side
of minus infinity. -/
theorem floor_decode (v : Nat) (hfin : expo v ≠ 2047) :
    ∃ N b, floor v = pack (decide (sign v = 1)) b ∧ b < 2 ^ 63 ∧ expo b ≠ 2047 ∧
      mag b = N ∧
      (sign v = 0 → N ≤ mag v ∧ mag v < N + 2 ^ 1074) ∧
      (sign v = 1 → mag v ≤ N ∧ N < mag v + 2 ^ 1074) := by
  obtain ⟨hnan, hinf⟩ := (finite_iff v).mpr hfin
  have hP : 0 < 2 ^ 1074 := Nat.pow_pos (by norm_num)
  have hdm := Nat.div_add_mod (mag v) (2 ^ 1074)
  have hrem := Nat.mod_lt (mag v) hP
  have hfl : floor v = pack (decide (sign v = 1))
      (roundMag ((mag v / 2 ^ 1074
        + (if sign v = 1 ∧ mag v % 2 ^ 1074 ≠ 0 then 1 else 0)) * 2 ^ 1074) 0) := by
    unfold floor; rw [if_neg hnan, if_neg hinf]
  have hf := frac_lt v
  have he := expo_lt v
  by_cases hr0 : mag v % 2 ^ 1074 = 0
  · -- an integer value: the floor is the value itself
    have hN : (mag v / 2 ^ 1074
        + (if sign v = 1 ∧ mag v % 2 ^ 1074 ≠ 0 then 1 else 0)) * 2 ^ 1074 = mag v := by
      rw [if_neg (by simp [hr0]), Nat.add_zero]
      exact Nat.div_mul_cancel (Nat.dvd_of_mod_eq_zero hr0)
    rw [hN] at hfl
    have hrep : roundMag (mag v) 0 < posInf ∧ mag (roundMag (mag v) 0) = mag v ∧
        expo (roundMag (mag v) 0) ≠ 2047 ∧ roundMag (mag v) 0 < 2 ^ 63 := by
      have hml := mag_lt v hfin
      by_cases h0 : expo v = 0
      · have hm : mag v = frac v * 2 ^ 0 := by unfold mag; rw [if_pos h0]; simp
        rw [hm] at hml ⊢
        exact roundMag_representable _ _ (by omega) hml
      · have hm : mag v = (2 ^ 52 + frac v) * 2 ^ (expo v - 1) := by
          unfold mag; rw [if_neg h0]
        rw [hm] at hml ⊢
        exact roundMag_representable _ _ (by omega) hml
    refine ⟨mag v, roundMag (mag v) 0, hfl, hrep.2.2.2, hrep.2.2.1, hrep.2.1, ?_, ?_⟩
    · intro _; exact ⟨le_refl _, Nat.lt_add_of_pos_right hP⟩
    · intro _; exact ⟨le_refl _, Nat.lt_add_of_pos_right hP⟩
  · -- a fractional value: its magnitude is below 2^53 * 2^1073
    have hsmall : mag v / 2 ^ 1074 < 2 ^ 52 := by
      rw [Nat.div_lt_iff_lt_mul hP]
      unfold mag at hr0 ⊢
      by_cases h0 : expo v = 0
      · rw [if_pos h0]
        calc frac v < 2 ^ 52 := hf
          _ = 2 ^ 52 * 1 := by norm_num
          _ ≤ 2 ^ 52 * 2 ^ 1074 := Nat.mul_le_mul_left _ hP
      · rw [if_neg h0] at hr0 ⊢
        have hlt : expo v - 1 < 1074 := by
          by_contra hc
          have hes : expo v - 1 - 1074 + 1074 = expo v - 1 := by omega
          have : 2 ^ (expo v - 1) = 2 ^ (expo v - 1 - 1074) * 2 ^ 1074 := by
            rw [← Nat.pow_add, hes]
          rw [this, ← Nat.mul_assoc] at hr0
          exact hr0 (Nat.mul_mod_left _ _)
        have h1 : 2 ^ 52 + frac v < 2 ^ 53 := by omega
        have h2 : 2 ^ (expo v - 1) ≤ 2 ^ 1073 := Nat.pow_le_pow_right (by norm_num) (by omega)
        calc (2 ^ 52 + frac v) * 2 ^ (expo v - 1)
            < 2 ^ 53 * 2 ^ (expo v - 1) :=
              Nat.mul_lt_mul_of_pos_right h1 (Nat.pow_pos (by norm_num))
          _ ≤ 2 ^ 53 * 2 ^ 1073 := Nat.mul_le_mul_left _ h2
          _ = 2 ^ 52 * 2 ^ 1074 := by rw [← Nat.pow_add, ← Nat.pow_add]
    generalize hI : mag v / 2 ^ 1074
        + (if sign v = 1 ∧ mag v % 2 ^ 1074 ≠ 0 then 1 else 0) = I at hfl
    have hI53 : I < 2 ^ 53 := by
      rw [← hI]; split <;> omega
    have hbound : I * 2 ^ 1074 < 2 ^ (2097 + 1) := by
      calc I * 2 ^ 1074 < 2 ^ 53 * 2 ^ 1074 := Nat.mul_lt_mul_of_pos_right hI53 hP
        _ = 2 ^ (53 + 1074) := by rw [← Nat.pow_add]
        _ ≤ 2 ^ (2097 + 1) := Nat.pow_le_pow_right (by norm_num) (by norm_num)
    obtain ⟨_, h2, h3, h4⟩ := roundMag_representable I 1074 hI53 hbound
    refine ⟨I * 2 ^ 1074, roundMag (I * 2 ^ 1074) 0, hfl, h4, h3, h2, ?_, ?_⟩
    · intro hs
      have hI0 : I = mag v / 2 ^ 1074 := by
        rw [← hI, if_neg (by omega), Nat.add_zero]
      rw [hI0]
      generalize mag v / 2 ^ 1074 = q at hdm
      generalize mag v % 2 ^ 1074 = r at hdm hrem
      generalize hPd : (2 : Nat) ^ 1074 = P at hdm hrem ⊢
      rw [Nat.mul_comm q P]
      omega
    · intro hs
      have hI1 : I = mag v / 2 ^ 1074 + 1 := by
        rw [← hI, if_pos ⟨hs, hr0⟩]
      rw [hI1, Nat.add_mul, Nat.one_mul]
      have hr1 : 0 < mag v % 2 ^ 1074 := Nat.pos_of_ne_zero hr0
      generalize mag v / 2 ^ 1074 = q at hdm
      generalize mag v % 2 ^ 1074 = r at hdm hrem hr1
      generalize hPd : (2 : Nat) ^ 1074 = P at hdm hrem ⊢
      rw [Nat.mul_comm q P]
      omega

end F64

namespace F64

theorem mod_fields (a : Nat) :
    sign (a % 2 ^ 64) = sign a ∧ expo (a % 2 ^ 64) = expo a ∧ frac (a % 2 ^ 64) = frac a := by
  unfold sign expo frac
  norm_num
  omega

/-- The idiom `v - floor(v)` in binary64: the result is NaN, or a pattern
between those of `+0.0` and `1.0`, both ends included. -/
theorem frac_closed_unit (v : Nat) :
    isNaN (sub v (floor v)) ∨ sub v (floor v) ≤ one := by
  by_cases hn : isNaN v
  · left; rw [sub_nan_left _ _ hn]; exact isNaN_qNaN
  by_cases hi : isInf v
  · left
    obtain ⟨m1, m2, m3⟩ := mod_fields v
    obtain ⟨n1, n2, n3⟩ := neg_fields (v % 2 ^ 64)
    have hfl : floor v = v % 2 ^ 64 := by unfold floor; rw [if_neg hn, if_pos hi]
    have hnm : ¬ isNaN (v % 2 ^ 64) := by
      unfold isNaN at hn ⊢; rw [m2, m3]; exact hn
    have hnn : ¬ isNaN (neg (v % 2 ^ 64)) := by
      unfold isNaN at hn ⊢; rw [n2, n3, m2, m3]; exact hn
    have hin : isInf (neg (v % 2 ^ 64)) := by
      unfold isInf at hi ⊢; rw [n2, n3, m2, m3]; exact hi
    have hsg : sign v ≠ sign (neg (v % 2 ^ 64)) := by
      rw [n1, m1]; rcases sign_le_one v with h | h <;> omega
    have : sub v (floor v) = qNaN := by
      rw [hfl]; unfold sub; rw [if_neg (not_or.mpr ⟨hn, hnm⟩)]
      unfold add
      rw [if_neg (not_or.mpr ⟨hn, hnn⟩), if_pos hi, if_pos ⟨hin, hsg⟩]
    rw [this]; exact isNaN_qNaN
  · right
    have hfin : expo v ≠ 2047 := (finite_iff v).mp ⟨hn, hi⟩
    obtain ⟨N, b, hfl, hb63, hbe, hbm, h0, h1⟩ := floor_decode v hfin
    obtain ⟨p1, p2, p3⟩ := pack_fields (decide (sign v = 1)) b hb63
    have hmagF : mag (floor v) = N := by rw [hfl, mag_pack _ _ hb63, hbm]
    have hexpF : expo (floor v) ≠ 2047 := by rw [hfl, p2]; exact hbe
    have hsgF : sign (floor v) = sign v := by
      rw [hfl, p1]; rcases sign_le_one v with h | h <;> simp [h]
    obtain ⟨hnF, hiF⟩ := (finite_iff (floor v)).mpr hexpF
    obtain ⟨n1, n2, n3⟩ := neg_fields (floor v)
    have hexpG : expo (neg (floor v)) ≠ 2047 := by rw [n2]; exact hexpF
    obtain ⟨hnG, hiG⟩ := (finite_iff (neg (floor v))).mpr hexpG
    have hmagG : mag (neg (floor v)) = N := by rw [mag_neg, hmagF]
    have hsgG : sign (neg (floor v)) = 1 - sign v := by rw [n1, hsgF]
    have hsub : sub v (floor v) = add v (neg (floor v)) := by
      unfold sub; rw [if_neg (not_or.mpr ⟨hn, hnF⟩)]
    rw [hsub]
    unfold add
    rw [if_neg (not_or.mpr ⟨hn, hnG⟩), if_neg hi, if_neg hiG]
    have hsum : ∃ D : Nat, toInt v + toInt (neg (floor v)) = (D : Int) ∧ D < 2 ^ (1073 + 1) := by
      unfold toInt
      rw [hsgG, hmagG]
      rcases sign_le_one v with hs | hs
      · obtain ⟨a1, a2⟩ := h0 hs
        rw [hs, if_neg (by norm_num), if_pos (by norm_num)]
        refine ⟨mag v - N, by omega, ?_⟩
        have : (2 : Nat) ^ (1073 + 1) = 2 ^ 1074 := rfl
        rw [this]
        generalize (2 : Nat) ^ 1074 = P at a2 ⊢
        omega
      · obtain ⟨a1, a2⟩ := h1 hs
        rw [hs, if_pos rfl, if_neg (by norm_num)]
        refine ⟨N - mag v, by omega, ?_⟩
        have : (2 : Nat) ^ (1073 + 1) = 2 ^ 1074 := rfl
        rw [this]
        generalize (2 : Nat) ^ 1074 = P at a2 ⊢
        omega
    obtain ⟨D, hD, hDlt⟩ := hsum
    rw [hD]
    by_cases hz : (D : Int) = 0
    · rw [if_pos hz, if_neg (by rw [hsgG]; rcases sign_le_one v with h | h <;> omega)]
      decide
    · rw [if_neg hz]
      have hneg : ¬ ((D : Int) < 0) := by omega
      simp only [hneg, decide_False, pack, Bool.false_eq_true, if_false, Int.natAbs_ofNat]
      exact roundMag_le_one D hDlt

end F64

/-! ## What the renormalisation `v - floor(v)` does guarantee -/

/-- After one pass of the deterministic loop body, from any state and for
any library `pow`, each of `x` and `epsilon_acc` is NaN or a pattern between
those of `+0.0` and `1.0`, both ends included. -/
theorem Urandom.agle_iter_closed_unit (lib : Nat → Nat → Nat) (gen : AGLE) :
    (F64.isNaN (Urandom.agle_iter lib gen).gen.x ∨ (Urandom.agle_iter lib gen).gen.x ≤ F64.one) ∧
    (F64.isNaN (Urandom.agle_iter lib gen).gen.epsilon_acc ∨
      (Urandom.agle_iter lib gen).gen.epsilon_acc ≤ F64.one) :=
  ⟨F64.frac_closed_unit _, F64.frac_closed_unit _⟩

/-- After one pass of the jitter variant of the loop body, from any state,
for any library `pow` and any cycle-counter readings, each of `x` and
`epsilon_acc` is NaN or a pattern between those of `+0.0` and `1.0`, both
ends included. -/
theorem RngFinal.agle_jitter_iter_closed_unit (lib : Nat → Nat → Nat) (rdtsc : Nat → Nat)
    (iter : Nat) (gen : AGLE) :
    (F64.isNaN (RngFinal.agle_iter lib rdtsc iter gen).gen.x ∨
      (RngFinal.agle_iter lib rdtsc iter gen).gen.x ≤ F64.one) ∧
    (F64.isNaN (RngFinal.agle_iter lib rdtsc iter gen).gen.epsilon_acc ∨
      (RngFinal.agle_iter lib rdtsc iter gen).gen.epsilon_acc ≤ F64.one) :=
  ⟨F64.frac_closed_unit _, F64.frac_closed_unit _⟩

/-- The 8-bit probe value `jitter` lies in `[0,1)` for all counter readings. -/
theorem RngFinal.jitter_inUnit (t0 t1 : Nat) : F64.inUnit (RngFinal.jitter t0 t1) := by
  have key : ∀ k, k < 256 → F64.inUnit (F64.div (F64.ofNat k) c_256) := by decide!
  have hk : ((t1 % 2 ^ 64 + 2 ^ 64 - t0 % 2 ^ 64) % 2 ^ 64) &&& 0xFF < 256 :=
    Nat.and_lt_two_pow _ (by norm_num : 0xFF < 2 ^ 8)
  exact key _ hk
